import Mathlib

/-!
Verification of `scripts/check_repo_safety.py`, a pre-commit safety gate.

The Python source is shallowly embedded: pure functions (`line_for_offset`,
`check_blocked_path`, `scan_text`) become Lean functions on `String` /
`List Char`; the compiled regular expressions of `SECRET_PATTERNS` become
terms of a small `Regex` type together with a matcher `matchLen` and an
iterator `findIter` that models `re.Pattern.finditer` (leftmost,
non-overlapping matches); file-system effects (`Path.read_bytes`,
`Path.read_text` + `json.loads`) are modelled by explicit `Except` inputs.

Scope notes, fixed once here:
* character classes, `str.lower()` and `re.IGNORECASE` are modelled on the
  ASCII range (every string the checker's own constants mention is ASCII);
* `pathlib` name/suffix computation is modelled for ordinary POSIX paths
  (no `..` normalisation, no drive letters);
* the matcher is greedy without backtracking, which coincides with Python's
  backtracking semantics for the five registry patterns because every
  repetition body is character-class based and disjoint from what follows,
  and the branches of each alternation start with pairwise distinct
  characters.
-/

namespace RepoSafety

/-- ASCII lowering of one character; models Python `str.lower` on the ASCII
range (the only range the checker's constants use). -/
def asciiLower (c : Char) : Char :=
  if 'A' ≤ c ∧ c ≤ 'Z' then Char.ofNat (c.toNat + 32) else c

/-- Models Python `str.lower()` (ASCII range). -/
def strLower (s : String) : String := ⟨s.data.map asciiLower⟩

/-- Boolean test that `pat` is a leading segment of `s`
(Python `str.startswith`). -/
def leadsWith : List Char → List Char → Bool
  | [], _ => true
  | _ :: _, [] => false
  | p :: ps, c :: cs => c = p && leadsWith ps cs

/-- Case-insensitive variant of `leadsWith`, for `re.IGNORECASE` literals. -/
def leadsWithCI : List Char → List Char → Bool
  | [], _ => true
  | _ :: _, [] => false
  | p :: ps, c :: cs => asciiLower c = asciiLower p && leadsWithCI ps cs

/-- Split a character list on `'/'` (Python `str.split('/')`, on the path
separator). -/
def splitSlash (cs : List Char) : List (List Char) :=
  cs.foldr
    (fun c acc =>
      if c = '/' then [] :: acc
      else
        match acc with
        | a :: rest => (c :: a) :: rest
        | [] => [[c]])
    [[]]

/-- Models `pathlib.Path(p).name`: last nonempty `/`-separated component. -/
def baseName (p : String) : String :=
  ⟨(splitSlash p.data).foldl (fun acc comp => if comp.isEmpty then acc else comp) []⟩

/-- Index of the last occurrence of `'.'` in a character list
(Python `str.rfind('.')`, as an `Option`). -/
def lastDot : List Char → Option Nat
  | [] => none
  | c :: cs =>
    match lastDot cs with
    | some i => some (i + 1)
    | none => if c = '.' then some 0 else none

/-- Models `pathlib.Path(p).suffix` (CPython: the part of the final
component from its last dot, provided that dot is neither the first nor the
last character of the name). -/
def pySuffix (p : String) : String :=
  let name := baseName p
  match lastDot name.data with
  | some i => if 0 < i ∧ i + 1 < name.data.length then ⟨name.data.drop i⟩ else ""
  | none => ""

/-! ### Regular expressions

A term model of exactly the constructs the five `SECRET_PATTERNS` use:
literals (case-sensitive and `IGNORECASE`), ordered alternation,
concatenation, a single character-class character, and greedy class
repetitions `{n}`, `{n,}` and `*`. -/

/-- Abstract syntax of the regular-expression fragment used by
`SECRET_PATTERNS`. -/
inductive Regex where
  | lit : String → Regex
  | litCI : String → Regex
  | alt : Regex → Regex → Regex
  | seq : Regex → Regex → Regex
  | cls1 : (Char → Bool) → Regex
  | repGE : (Char → Bool) → Nat → Regex
  | repEq : (Char → Bool) → Nat → Regex
  | star : (Char → Bool) → Regex

/-- Length of the maximal leading run of characters satisfying `p`
(what a greedy class repetition consumes). -/
def clsRun (p : Char → Bool) : List Char → Nat
  | [] => 0
  | c :: cs => if p c then clsRun p cs + 1 else 0

/-- Number of characters the regex consumes when matched (greedily) at the
head of `cs`, or `none` when it does not match there. This is Python
`pattern.match` semantics for the registry's backtracking-free patterns. -/
def matchLen : Regex → List Char → Option Nat
  | .lit s, cs => if leadsWith s.data cs then some s.data.length else none
  | .litCI s, cs => if leadsWithCI s.data cs then some s.data.length else none
  | .alt a b, cs =>
    match matchLen a cs with
    | some n => some n
    | none => matchLen b cs
  | .seq a b, cs =>
    match matchLen a cs with
    | some n =>
      match matchLen b (cs.drop n) with
      | some m => some (n + m)
      | none => none
    | none => none
  | .cls1 p, cs =>
    match cs with
    | c :: _ => if p c then some 1 else none
    | [] => none
  | .repGE p n, cs => if n ≤ clsRun p cs then some (clsRun p cs) else none
  | .repEq p n, cs =>
    if n ≤ cs.length && (cs.take n).all p then some n else none
  | .star p, cs => some (clsRun p cs)

/-- Worker for `findIter`: scan left to right from absolute position `pos`;
on a match of length `len > 0` record `(pos, len)` and resume after it,
otherwise advance one character. `fuel` bounds the recursion (callers pass
the list length, which suffices). -/
def findIterAux (r : Regex) : Nat → List Char → Nat → List (Nat × Nat)
  | 0, _, _ => []
  | fuel + 1, cs, pos =>
    match cs with
    | [] => []
    | _ :: rest =>
      match matchLen r cs with
      | some 0 => findIterAux r fuel rest (pos + 1)
      | some (len + 1) =>
        (pos, len + 1) :: findIterAux r fuel (cs.drop (len + 1)) (pos + (len + 1))
      | none => findIterAux r fuel rest (pos + 1)

/-- Models `pattern.finditer(text)`: the list of `(start, length)` of all
leftmost non-overlapping matches, left to right. -/
def findIter (r : Regex) (cs : List Char) : List (Nat × Nat) :=
  findIterAux r cs.length cs 0

/-! ### The pattern registry (`SECRET_PATTERNS`) -/

/-- Class `[A-Za-z0-9]` (Python `[A-Za-z0-9]`). -/
def isAlnumA (c : Char) : Bool :=
  ('A' ≤ c && c ≤ 'Z') || ('a' ≤ c && c ≤ 'z') || ('0' ≤ c && c ≤ '9')

/-- Class `[A-Za-z0-9_-]`. -/
def isWordDash (c : Char) : Bool := isAlnumA c || c = '_' || c = '-'

/-- Class `[0-9A-Z]`. -/
def isUpperDigit (c : Char) : Bool :=
  ('0' ≤ c && c ≤ '9') || ('A' ≤ c && c ≤ 'Z')

/-- Class `[A-Za-z0-9/+_=]`. -/
def isB64 (c : Char) : Bool := isAlnumA c || c = '/' || c = '+' || c = '_' || c = '='

/-- Python `\s` on the ASCII range: space, tab, newline, carriage return,
vertical tab, form feed. -/
def isPySpace (c : Char) : Bool :=
  c = ' ' || c = '\t' || c = '\n' || c = '\r' || c = '\x0b' || c = '\x0c'

/-- Regex `sk-(?:proj|live|test)-[A-Za-z0-9_-]{20,}`. -/
def openaiRe : Regex :=
  .seq (.lit "sk-")
    (.seq (.alt (.lit "proj") (.alt (.lit "live") (.lit "test")))
      (.seq (.lit "-") (.repGE isWordDash 20)))

/-- Regex `gh[pousr]_[A-Za-z0-9]{20,}`. -/
def githubRe : Regex :=
  .seq (.lit "gh")
    (.seq (.cls1 (fun c => c = 'p' || c = 'o' || c = 'u' || c = 's' || c = 'r'))
      (.seq (.lit "_") (.repGE isAlnumA 20)))

/-- Regex `AKIA[0-9A-Z]{16}`. -/
def awsKeyRe : Regex := .seq (.lit "AKIA") (.repEq isUpperDigit 16)

/-- Regex `aws_secret_access_key\s*[:=]\s*[A-Za-z0-9/+_=]{30,}` with
`re.IGNORECASE` (which only affects the leading literal; the classes are
already case-closed). -/
def awsSecretRe : Regex :=
  .seq (.litCI "aws_secret_access_key")
    (.seq (.star isPySpace)
      (.seq (.cls1 (fun c => c = ':' || c = '='))
        (.seq (.star isPySpace) (.repGE isB64 30))))

/-- Regex `-----BEGIN (?:RSA|OPENSSH|EC|DSA|PGP) PRIVATE KEY-----`. -/
def pemRe : Regex :=
  .seq (.lit "-----BEGIN ")
    (.seq (.alt (.lit "RSA") (.alt (.lit "OPENSSH") (.alt (.lit "EC")
      (.alt (.lit "DSA") (.lit "PGP")))))
      (.lit " PRIVATE KEY-----"))

/-- The ordered pattern registry `SECRET_PATTERNS` of the source. -/
def SECRET_PATTERNS : List (String × Regex) :=
  [("OpenAI API key", openaiRe),
   ("GitHub token", githubRe),
   ("AWS access key", awsKeyRe),
   ("AWS secret key assignment", awsSecretRe),
   ("Private key block", pemRe)]

/-- The set `BLOCKED_FILENAMES` of the source. -/
def BLOCKED_FILENAMES : List String := ["AGENTS.md", "agents.md"]

/-! ### Findings

The source builds formatted strings directly; the embedding keeps the
structured data `(path, location, message)` (exactly the spec's Finding
record) plus `Finding.format`, whose output is the source's f-string. -/

/-- Location part of a finding: `N`, `cellI` or `cellI:lineN`. -/
inductive Loc where
  | line : Nat → Loc
  | cell : Nat → Loc
  | cellLine : Nat → Nat → Loc
deriving DecidableEq, Repr

/-- A finding: path, location, message. -/
structure Finding where
  path : String
  loc : Loc
  msg : String
deriving DecidableEq, Repr

/-- Render a location the way the source interpolates it. -/
def Loc.render : Loc → String
  | .line n => toString n
  | .cell i => "cell" ++ toString i
  | .cellLine i n => "cell" ++ toString i ++ ":line" ++ toString n

/-- The formatted issue string the Python code appends to `issues`. -/
def Finding.format (f : Finding) : String :=
  f.path ++ ":" ++ f.loc.render ++ ": " ++ f.msg

/-- Message of the `.env*` rule. -/
def envMsg : String :=
  "\x27.env*\x27 files are not allowed in git (except .env.example)"

/-- Message of the certificate/key-extension rule. -/
def certMsg : String := "certificate/key files are not allowed in git"

/-- Message of the blocked-filename rule. -/
def blockedNameMsg (name : String) : String :=
  "blocked file name \x27" ++ name ++ "\x27"

/-- Embeds `check_blocked_path`: the three independent classification
rules, each reported at line 1. -/
def check_blocked_path (p : String) : List Finding :=
  let name := baseName p
  let lowered := strLower name
  (if name ∈ BLOCKED_FILENAMES then [⟨p, .line 1, blockedNameMsg name⟩] else [])
    ++ (if leadsWith ".env".data lowered.data ∧ name ≠ ".env.example" then
          [⟨p, .line 1, envMsg⟩] else [])
    ++ (if strLower (pySuffix p) ∈ [".pem", ".key", ".p12", ".crt"] then
          [⟨p, .line 1, certMsg⟩] else [])

/-- Embeds `line_for_offset`: `text.count("\n", 0, offset) + 1`. -/
def line_for_offset (text : String) (offset : Nat) : Nat :=
  (text.data.take offset).count '\n' + 1

/-- Embeds `scan_text`: the nested append loops over the registry and the
matches of each pattern. -/
def scan_text (path : String) (text : String) : List Finding :=
  SECRET_PATTERNS.foldl
    (fun issues lp =>
      (findIter lp.2 text.data).foldl
        (fun issues m =>
          issues ++ [⟨path, .line (line_for_offset text m.1), "possible " ++ lp.1⟩])
        issues)
    []

/-! ### Notebook scanner

A notebook is the JSON object `json.loads` returns; the scanner only looks
at `nb.get("cells", [])`, and per cell at `cell.get("cell_type")`,
`cell.get("source", [])` and `cell.get("outputs")`. The embedding keeps
exactly those projections. Output entries are never inspected, only tested
for presence, so they are carried as opaque strings. -/

/-- One notebook cell, reduced to the three fields the scanner reads.
`cellType` is `cell.get("cell_type")` (`none` when absent), `source` is
`cell.get("source", [])`, `outputs` is `cell.get("outputs")` (`none` when
the key is absent). -/
structure Cell where
  cellType : Option String
  source : List String
  outputs : Option (List String)
deriving DecidableEq, Repr

/-- A parsed notebook: `nb.get("cells", [])`. -/
structure Notebook where
  cells : List Cell
deriving DecidableEq, Repr

/-- Python truthiness of `cell.get("outputs")`: present and non-empty. -/
def truthyOutputs : Option (List String) → Bool
  | some (_ :: _) => true
  | _ => false

/-- Pair each element with its 1-based position starting at `n`
(Python `enumerate(cells, start=1)`). -/
def enumerateFrom (n : Nat) : List Cell → List (Nat × Cell)
  | [] => []
  | c :: cs => (n, c) :: enumerateFrom (n + 1) cs

/-- Message of the uncleared-outputs rule. -/
def outputsMsg : String := "notebook outputs must be cleared before commit"

/-- Findings of one cell: the outputs check, then the secret scan of the
concatenated source located as `cellI:lineN`. -/
def cellFindings (path : String) (idx : Nat) (cell : Cell) : List Finding :=
  let source := String.join cell.source
  (if cell.cellType = some "code" ∧ truthyOutputs cell.outputs then
      [⟨path, .cell idx, outputsMsg⟩] else [])
    ++ SECRET_PATTERNS.foldl
        (fun issues lp =>
          (findIter lp.2 source.data).foldl
            (fun issues m =>
              issues ++ [⟨path, .cellLine idx (line_for_offset source m.1),
                          "possible " ++ lp.1⟩])
            issues)
        []

/-- Embeds `scan_notebook`. Its argument models
`json.loads(path.read_text(encoding="utf-8"))` inside the source's single
`try`: `Except.error e` stands for any exception raised by the read or the
parse, with `e` the rendered exception text. -/
def scan_notebook (path : String) (parsed : Except String Notebook) : List Finding :=
  match parsed with
  | .error e => [⟨path, .line 1, "cannot parse notebook JSON: " ++ e⟩]
  | .ok nb => (enumerateFrom 1 nb.cells).foldl
      (fun issues ic => issues ++ cellFindings path ic.1 ic.2) []

/-! ### File dispatcher -/

/-- Decode one UTF-8 sequence whose first byte is `b` and whose remaining
bytes start `rest`: the decoded character (or `none` on invalid input) and
the number of continuation bytes consumed. Valid sequences follow the
standard ranges, rejecting overlong forms, surrogates and values above
`0x10FFFF`. -/
def utf8Step (b : Nat) (rest : List Nat) : Option Char × Nat :=
  if b < 0x80 then (some (Char.ofNat b), 0)
  else
    match rest with
    | b2 :: rest2 =>
      if 0xC2 ≤ b ∧ b ≤ 0xDF ∧ 0x80 ≤ b2 ∧ b2 ≤ 0xBF then
        (some (Char.ofNat ((b - 0xC0) * 64 + (b2 - 0x80))), 1)
      else
        match rest2 with
        | b3 :: rest3 =>
          if (0xE0 ≤ b ∧ b ≤ 0xEF) ∧ 0x80 ≤ b2 ∧ b2 ≤ 0xBF ∧ 0x80 ≤ b3 ∧ b3 ≤ 0xBF
              ∧ (b = 0xE0 → 0xA0 ≤ b2) ∧ (b = 0xED → b2 ≤ 0x9F) then
            (some (Char.ofNat ((b - 0xE0) * 4096 + (b2 - 0x80) * 64 + (b3 - 0x80))), 2)
          else
            match rest3 with
            | b4 :: _ =>
              if (0xF0 ≤ b ∧ b ≤ 0xF4) ∧ 0x80 ≤ b2 ∧ b2 ≤ 0xBF ∧ 0x80 ≤ b3 ∧ b3 ≤ 0xBF
                  ∧ 0x80 ≤ b4 ∧ b4 ≤ 0xBF ∧ (b = 0xF0 → 0x90 ≤ b2) ∧ (b = 0xF4 → b2 ≤ 0x8F) then
                (some (Char.ofNat ((b - 0xF0) * 262144 + (b2 - 0x80) * 4096
                    + (b3 - 0x80) * 64 + (b4 - 0x80))), 3)
              else (none, 0)
            | [] => (none, 0)
        | [] => (none, 0)
    | [] => (none, 0)

/-- Worker for `decodeUtf8Ignore`, with fuel for structural recursion
(callers pass the byte count, which suffices since every step consumes at
least one byte). Exact on valid UTF-8; on invalid input it skips bytes one
at a time, an approximation of CPython's maximal-subpart skipping that no
theorem below depends on. -/
def decodeUtf8IgnoreAux : Nat → List Nat → List Char
  | 0, _ => []
  | _, [] => []
  | fuel + 1, b :: rest =>
    match utf8Step b rest with
    | (some c, k) => c :: decodeUtf8IgnoreAux fuel (rest.drop k)
    | (none, _) => decodeUtf8IgnoreAux fuel rest

/-- Decode a byte sequence as UTF-8, skipping undecodable bytes: models
`bytes.decode("utf-8", errors="ignore")` (see `decodeUtf8IgnoreAux`). -/
def decodeUtf8Ignore (bs : List Nat) : List Char := decodeUtf8IgnoreAux bs.length bs

/-- What the file system returns for one path: the result of
`path.read_bytes()` (bytes, or the rendered exception), and the result of
the notebook read-and-parse (used only for `.ipynb` paths; see
`scan_notebook`). The two fields model the two distinct `try` blocks of
the source. -/
structure FileState where
  bytes : Except String (List Nat)
  nb : Except String Notebook

/-- Embeds `scan_file`: classify the path, then dispatch on the lowercased
suffix — notebook scan for `.ipynb`, otherwise read bytes (read failure is
one finding), skip text scanning when a null byte is present, else decode
and scan the text. -/
def scan_file (path : String) (fs : FileState) : List Finding :=
  let issues := check_blocked_path path
  if strLower (pySuffix path) = ".ipynb" then
    issues ++ scan_notebook path fs.nb
  else
    match fs.bytes with
    | .error e => issues ++ [⟨path, .line 1, "cannot read file: " ++ e⟩]
    | .ok data =>
      if 0 ∈ data then issues
      else issues ++ scan_text path ⟨decodeUtf8Ignore data⟩

/-! ### Report/exit driver

`main`'s target enumeration (`git_root`, `iter_targets`) queries git and
the file system; the driver is modelled over the list of targets that
enumeration yields, each with its `FileState`. Standard output is modelled
as the list of printed lines: `print("...blocked:\n")` emits the header
line and a blank line. -/

/-- Aggregated findings of a run, in enumeration order. -/
def runFindings (targets : List (String × FileState)) : List Finding :=
  targets.foldl (fun issues t => issues ++ scan_file t.1 t.2) []

/-- Embeds the reporting tail of `main`: printed lines and exit status. -/
def run (targets : List (String × FileState)) : List String × Nat :=
  let issues := runFindings targets
  if issues.isEmpty then ([], 0)
  else ("[repo-safety] commit blocked:" :: "" ::
          issues.map (fun f => "- " ++ f.format), 1)

/-- ASCII bytes of a string (the encodings in all concrete examples are
pure ASCII, where UTF-8 is the identity byte-per-char). -/
def asciiBytes (s : String) : List Nat := s.data.map Char.toNat

/-! ### Lemmas about the matcher -/

/-- The leading-segment test succeeds exactly when the text extends the
sought segment. -/
theorem leadsWith_iff (p : List Char) :
    ∀ cs, leadsWith p cs = true ↔ ∃ t, cs = p ++ t := by
  induction p with
  | nil => intro cs; simp [leadsWith]
  | cons a ps ih =>
    intro cs
    cases cs with
    | nil => simp [leadsWith]
    | cons c cs' =>
      simp only [leadsWith, List.cons_append, Bool.and_eq_true, decide_eq_true_eq, ih]
      constructor
      · rintro ⟨rfl, t, rfl⟩; exact ⟨t, rfl⟩
      · rintro ⟨t, h⟩
        injection h with h1 h2
        exact ⟨h1, t, h2⟩

/-- A case-insensitive leading-segment test only succeeds on a text at
least as long as the sought segment. -/
theorem leadsWithCI_length (p : List Char) :
    ∀ cs, leadsWithCI p cs = true → p.length ≤ cs.length := by
  induction p with
  | nil => intro cs _; simp
  | cons a ps ih =>
    intro cs h
    cases cs with
    | nil => simp [leadsWithCI] at h
    | cons c cs' =>
      simp only [leadsWithCI, Bool.and_eq_true] at h
      simpa using Nat.succ_le_succ (ih cs' h.2)

/-- A greedy class run never exceeds the text length. -/
theorem clsRun_le (p : Char → Bool) : ∀ cs : List Char, clsRun p cs ≤ cs.length := by
  intro cs
  induction cs with
  | nil => simp [clsRun]
  | cons c cs ih =>
    simp only [clsRun, List.length_cons]
    split <;> omega

/-- Every character inside the greedy class run satisfies the class. -/
theorem clsRun_take_all (p : Char → Bool) :
    ∀ cs : List Char, ∀ c ∈ cs.take (clsRun p cs), p c = true := by
  intro cs
  induction cs with
  | nil => simp
  | cons c cs ih =>
    simp only [clsRun]
    split
    · intro d hd
      rw [List.take_succ_cons] at hd
      rcases List.mem_cons.1 hd with rfl | hd
      · assumption
      · exact ih d hd
    · simp

/-- A greedy class run absorbs at least any all-class leading segment. -/
theorem clsRun_append_ge (p : Char → Bool) :
    ∀ l1 l2 : List Char, (∀ c ∈ l1, p c = true) → l1.length ≤ clsRun p (l1 ++ l2) := by
  intro l1
  induction l1 with
  | nil => simp
  | cons c l1 ih =>
    intro l2 h
    have hc : p c = true := h c (List.mem_cons_self ..)
    simp only [List.cons_append, clsRun, hc, if_true, List.length_cons, List.append_eq]
    have := ih l2 (fun d hd => h d (List.mem_cons_of_mem _ hd))
    omega

/-- A match never consumes more characters than the text has. -/
theorem matchLen_le :
    ∀ (r : Regex) (cs : List Char) (n : Nat), matchLen r cs = some n → n ≤ cs.length := by
  intro r
  induction r with
  | lit s =>
    intro cs n h
    simp only [matchLen] at h
    split at h
    · rename_i hl
      obtain ⟨t, rfl⟩ := (leadsWith_iff _ _).1 hl
      injection h with h
      simp [← h]
    · exact absurd h (by simp)
  | litCI s =>
    intro cs n h
    simp only [matchLen] at h
    split at h
    · rename_i hl
      injection h with h
      exact h ▸ leadsWithCI_length _ _ hl
    · exact absurd h (by simp)
  | alt a b iha ihb =>
    intro cs n h
    simp only [matchLen] at h
    cases hm : matchLen a cs with
    | some k => rw [hm] at h; injection h with h; exact h ▸ iha cs k hm
    | none => rw [hm] at h; exact ihb cs n h
  | seq a b iha ihb =>
    intro cs n h
    cases hm : matchLen a cs with
    | none => simp only [matchLen, hm] at h; exact Option.noConfusion h
    | some k =>
      cases hm2 : matchLen b (cs.drop k) with
      | none => simp only [matchLen, hm, hm2] at h; exact Option.noConfusion h
      | some m =>
        simp only [matchLen, hm, hm2, Option.some.injEq] at h
        have h1 := iha cs k hm
        have h2 := ihb (cs.drop k) m hm2
        rw [List.length_drop] at h2
        omega
  | cls1 p =>
    intro cs n h
    cases cs with
    | nil => simp [matchLen] at h
    | cons c cs' =>
      simp only [matchLen] at h
      split at h
      · injection h with h; simp [← h]
      · exact absurd h (by simp)
  | repGE p k =>
    intro cs n h
    simp only [matchLen] at h
    split at h
    · injection h with h; exact h ▸ clsRun_le p cs
    · exact absurd h (by simp)
  | repEq p k =>
    intro cs n h
    simp only [matchLen] at h
    split at h
    · rename_i hc
      injection h with h
      simp only [Bool.and_eq_true, decide_eq_true_eq] at hc
      omega
    · exact absurd h (by simp)
  | star p =>
    intro cs n h
    simp only [matchLen] at h
    injection h with h
    exact h ▸ clsRun_le p cs

/-- A regex that consumes at least one character whenever it matches
(true of every registry pattern, which all begin with a nonempty literal). -/
def Nonnull (r : Regex) : Prop :=
  ∀ (cs : List Char) (n : Nat), matchLen r cs = some n → 1 ≤ n

/-- A concatenation starting with a nonempty literal never matches empty. -/
theorem nonnull_seq_lit (s : String) (b : Regex) (hs : 1 ≤ s.data.length) :
    Nonnull (.seq (.lit s) b) := by
  intro cs n h
  by_cases hl : leadsWith s.data cs = true
  · cases hm2 : matchLen b (cs.drop s.data.length) with
    | none => simp only [matchLen, hl, if_true, hm2] at h; exact Option.noConfusion h
    | some m =>
      simp only [matchLen, hl, if_true, hm2, Option.some.injEq] at h
      omega
  · simp [matchLen, hl] at h

/-- A concatenation starting with a nonempty case-insensitive literal never
matches empty. -/
theorem nonnull_seq_litCI (s : String) (b : Regex) (hs : 1 ≤ s.data.length) :
    Nonnull (.seq (.litCI s) b) := by
  intro cs n h
  by_cases hl : leadsWithCI s.data cs = true
  · cases hm2 : matchLen b (cs.drop s.data.length) with
    | none => simp only [matchLen, hl, if_true, hm2] at h; exact Option.noConfusion h
    | some m =>
      simp only [matchLen, hl, if_true, hm2, Option.some.injEq] at h
      omega
  · simp [matchLen, hl] at h

/-- Every pattern in the registry consumes at least one character per
match. -/
theorem nonnull_registry : ∀ lp ∈ SECRET_PATTERNS, Nonnull lp.2 := by
  intro lp hlp
  simp only [SECRET_PATTERNS, List.mem_cons, List.not_mem_nil, or_false] at hlp
  rcases hlp with rfl | rfl | rfl | rfl | rfl
  · exact nonnull_seq_lit _ _ (by decide)
  · exact nonnull_seq_lit _ _ (by decide)
  · exact nonnull_seq_lit _ _ (by decide)
  · exact nonnull_seq_litCI _ _ (by decide)
  · exact nonnull_seq_lit _ _ (by decide)

/-- Soundness of the scan: every reported `(start, length)` is a real match
of the pattern at that offset, of positive length. -/
theorem findIterAux_sound (r : Regex) :
    ∀ (fuel : Nat) (cs : List Char) (pos : Nat) (m : Nat × Nat),
      m ∈ findIterAux r fuel cs pos →
      ∃ j, m.1 = pos + j ∧ matchLen r (cs.drop j) = some m.2 ∧ 1 ≤ m.2 := by
  intro fuel
  induction fuel with
  | zero => intro cs pos m h; simp [findIterAux] at h
  | succ fuel ih =>
    intro cs pos m h
    cases cs with
    | nil => simp [findIterAux] at h
    | cons c rest =>
      cases hm : matchLen r (c :: rest) with
      | none =>
        simp only [findIterAux, hm] at h
        obtain ⟨j, hj, hmatch, hlen⟩ := ih rest (pos + 1) m h
        exact ⟨j + 1, by omega, by simpa using hmatch, hlen⟩
      | some n =>
        cases n with
        | zero =>
          simp only [findIterAux, hm] at h
          obtain ⟨j, hj, hmatch, hlen⟩ := ih rest (pos + 1) m h
          exact ⟨j + 1, by omega, by simpa using hmatch, hlen⟩
        | succ len =>
          simp only [findIterAux, hm, List.mem_cons] at h
          rcases h with rfl | h
          · exact ⟨0, by omega, by simpa using hm, by omega⟩
          · obtain ⟨j, hj, hmatch, hlen⟩ := ih _ _ m h
            refine ⟨len + 1 + j, by omega, ?_, hlen⟩
            rw [List.drop_drop] at hmatch
            exact hmatch

/-- Reported matches are mutually non-overlapping and left to right: each
ends no later than the next begins. -/
theorem findIterAux_pairwise (r : Regex) :
    ∀ (fuel : Nat) (cs : List Char) (pos : Nat),
      (findIterAux r fuel cs pos).Pairwise (fun a b => a.1 + a.2 ≤ b.1) := by
  intro fuel
  induction fuel with
  | zero => intro cs pos; simp [findIterAux]
  | succ fuel ih =>
    intro cs pos
    cases cs with
    | nil => simp [findIterAux]
    | cons c rest =>
      cases hm : matchLen r (c :: rest) with
      | none => simp only [findIterAux, hm]; exact ih ..
      | some n =>
        cases n with
        | zero => simp only [findIterAux, hm]; exact ih ..
        | succ len =>
          simp only [findIterAux, hm]
          refine List.Pairwise.cons ?_ (ih ..)
          intro b hb
          obtain ⟨j, hj, _, _⟩ := findIterAux_sound r fuel _ _ b hb
          simp only
          omega

/-- Completeness of the scan for a pattern that never matches empty: any
offset where the pattern matches is covered by some reported match. -/
theorem findIterAux_complete (r : Regex) (hr : Nonnull r) :
    ∀ (fuel : Nat) (cs : List Char) (pos i len : Nat),
      cs.length ≤ fuel → matchLen r (cs.drop i) = some len →
      ∃ m ∈ findIterAux r fuel cs pos, m.1 ≤ pos + i ∧ pos + i < m.1 + m.2 := by
  intro fuel
  induction fuel with
  | zero =>
    intro cs pos i len hf hm
    have hnil : cs = [] := List.length_eq_zero.1 (Nat.le_zero.1 hf)
    subst hnil
    have h1 := hr _ _ hm
    have h2 := matchLen_le r _ _ hm
    simp only [List.drop_nil, List.length_nil] at h2
    exact absurd h1 (by omega)
  | succ fuel ih =>
    intro cs pos i len hf hm
    cases cs with
    | nil =>
      have h1 := hr _ _ hm
      have h2 := matchLen_le r _ _ hm
      simp only [List.drop_nil, List.length_nil] at h2
      exact absurd h1 (by omega)
    | cons c rest =>
      cases hmc : matchLen r (c :: rest) with
      | none =>
        cases i with
        | zero =>
          rw [List.drop_zero, hmc] at hm
          exact Option.noConfusion hm
        | succ i2 =>
          have hm2 : matchLen r (rest.drop i2) = some len := by simpa using hm
          obtain ⟨m, hmem, h1, h2⟩ := ih rest (pos + 1) i2 len (by simpa using hf) hm2
          refine ⟨m, ?_, by omega, by omega⟩
          simp only [findIterAux, hmc]
          exact hmem
      | some n =>
        cases n with
        | zero => exact absurd (hr _ _ hmc) (by omega)
        | succ len0 =>
          by_cases hi : i ≤ len0
          · refine ⟨(pos, len0 + 1), ?_, by omega, by simp only; omega⟩
            simp [findIterAux, hmc]
          · have hieq : len0 + 1 + (i - (len0 + 1)) = i := by omega
            have hm2 : matchLen r (((c :: rest).drop (len0 + 1)).drop (i - (len0 + 1)))
                = some len := by
              rw [List.drop_drop, hieq]
              exact hm
            have hflen : ((c :: rest).drop (len0 + 1)).length ≤ fuel := by
              simp only [List.length_drop, List.length_cons]
              have := Nat.le_of_succ_le_succ hf
              omega
            obtain ⟨m, hmem, h1, h2⟩ := ih _ (pos + (len0 + 1)) (i - (len0 + 1)) len hflen hm2
            refine ⟨m, ?_, by omega, by omega⟩
            simp only [findIterAux, hmc, List.mem_cons]
            exact Or.inr hmem

/-- Soundness, stated for `findIter`. -/
theorem findIter_sound (r : Regex) (cs : List Char) (m : Nat × Nat)
    (h : m ∈ findIter r cs) :
    matchLen r (cs.drop m.1) = some m.2 ∧ 1 ≤ m.2 := by
  obtain ⟨j, hj, hmatch, hlen⟩ := findIterAux_sound r cs.length cs 0 m h
  have : j = m.1 := by omega
  subst this
  exact ⟨hmatch, hlen⟩

/-- Completeness, stated for `findIter`. -/
theorem findIter_complete (r : Regex) (hr : Nonnull r) (cs : List Char) (i len : Nat)
    (hm : matchLen r (cs.drop i) = some len) :
    ∃ m ∈ findIter r cs, m.1 ≤ i ∧ i < m.1 + m.2 := by
  have := findIterAux_complete r hr cs.length cs 0 i len (le_refl _) hm
  simpa [findIter] using this

/-- Match starts are strictly increasing left to right. -/
theorem findIter_starts_sorted (r : Regex) (cs : List Char) :
    ((findIter r cs).map Prod.fst).Pairwise (· < ·) := by
  rw [List.pairwise_map]
  refine (findIterAux_pairwise r cs.length cs 0).imp_of_mem ?_
  intro a b ha _ hab
  obtain ⟨_, _, _, hlen⟩ := findIterAux_sound r cs.length cs 0 a ha
  omega

/-! ### Decomposition helpers for concrete patterns -/

/-- Building a concatenation match from its parts. -/
theorem matchLen_seq_eq {a b : Regex} {cs : List Char} {n m : Nat}
    (ha : matchLen a cs = some n) (hb : matchLen b (cs.drop n) = some m) :
    matchLen (.seq a b) cs = some (n + m) := by
  simp [matchLen, ha, hb]

/-- Splitting a concatenation match into its parts. -/
theorem matchLen_seq_decomp {a b : Regex} {cs : List Char} {k : Nat}
    (h : matchLen (.seq a b) cs = some k) :
    ∃ n m, matchLen a cs = some n ∧ matchLen b (cs.drop n) = some m ∧ k = n + m := by
  cases ha : matchLen a cs with
  | none => simp only [matchLen, ha] at h; exact Option.noConfusion h
  | some n =>
    cases hb : matchLen b (cs.drop n) with
    | none => simp only [matchLen, ha, hb] at h; exact Option.noConfusion h
    | some m =>
      simp only [matchLen, ha, hb, Option.some.injEq] at h
      exact ⟨n, m, rfl, hb, h.symm⟩

/-- An alternation match comes from one branch. -/
theorem matchLen_alt_decomp {a b : Regex} {cs : List Char} {k : Nat}
    (h : matchLen (.alt a b) cs = some k) :
    matchLen a cs = some k ∨ matchLen b cs = some k := by
  cases ha : matchLen a cs with
  | none => simp only [matchLen, ha] at h; exact Or.inr h
  | some n => simp only [matchLen, ha, Option.some.injEq] at h; exact Or.inl (by rw [h])

/-- A match of the left branch is a match of the alternation. -/
theorem matchLen_alt_left {a b : Regex} {cs : List Char} {k : Nat}
    (ha : matchLen a cs = some k) : matchLen (.alt a b) cs = some k := by
  simp [matchLen, ha]

/-- When the left branch fails, a right-branch match is the alternation's. -/
theorem matchLen_alt_right {a b : Regex} {cs : List Char} {k : Nat}
    (ha : matchLen a cs = none) (hb : matchLen b cs = some k) :
    matchLen (.alt a b) cs = some k := by
  simp [matchLen, ha, hb]

/-- A literal matches its own extension. -/
theorem matchLen_lit_eq (s : String) (t : List Char) :
    matchLen (.lit s) (s.data ++ t) = some s.data.length := by
  simp [matchLen, (leadsWith_iff _ _).2 ⟨t, rfl⟩]

/-- A successful literal match forces the text shape. -/
theorem matchLen_lit_decomp {s : String} {cs : List Char} {k : Nat}
    (h : matchLen (.lit s) cs = some k) :
    k = s.data.length ∧ ∃ t, cs = s.data ++ t := by
  by_cases hl : leadsWith s.data cs = true
  · simp only [matchLen, hl, if_true, Option.some.injEq] at h
    exact ⟨h.symm, (leadsWith_iff _ _).1 hl⟩
  · simp only [matchLen, hl, if_false] at h
    exact Option.noConfusion h

/-- An exact class repetition matches iff the next `n` characters are in
the class. -/
theorem matchLen_repEq_eq {p : Char → Bool} {n : Nat} {mid post : List Char}
    (hlen : mid.length = n) (hall : ∀ c ∈ mid, p c = true) :
    matchLen (.repEq p n) (mid ++ post) = some n := by
  have h1 : n ≤ mid.length + post.length := by omega
  have h2 : (mid ++ post).take n = mid := by rw [← hlen]; exact List.take_left ..
  simp [matchLen, List.length_append, h1, h2, List.all_eq_true.2 hall]

/-- Splitting a successful exact class repetition. -/
theorem matchLen_repEq_decomp {p : Char → Bool} {n : Nat} {cs : List Char} {k : Nat}
    (h : matchLen (.repEq p n) cs = some k) :
    k = n ∧ n ≤ cs.length ∧ ∀ c ∈ cs.take n, p c = true := by
  by_cases hc : (n ≤ cs.length && (cs.take n).all p) = true
  · simp only [matchLen, hc, if_true, Option.some.injEq] at h
    simp only [Bool.and_eq_true, decide_eq_true_eq, List.all_eq_true] at hc
    exact ⟨h.symm, hc.1, hc.2⟩
  · simp only [matchLen, hc, if_false] at h
    exact Option.noConfusion h

/-- An at-least class repetition matches any text whose class run is long
enough; it consumes the whole run. -/
theorem matchLen_repGE_eq {p : Char → Bool} {n : Nat} {cs : List Char}
    (h : n ≤ clsRun p cs) : matchLen (.repGE p n) cs = some (clsRun p cs) := by
  simp [matchLen, h]

/-- Splitting a successful at-least class repetition. -/
theorem matchLen_repGE_decomp {p : Char → Bool} {n : Nat} {cs : List Char} {k : Nat}
    (h : matchLen (.repGE p n) cs = some k) :
    k = clsRun p cs ∧ n ≤ k := by
  by_cases hc : n ≤ clsRun p cs
  · simp only [matchLen, hc, if_true, Option.some.injEq] at h
    exact ⟨h.symm, h ▸ hc⟩
  · simp only [matchLen, hc, if_false] at h
    exact Option.noConfusion h

/-! ### The spec-side shapes of C2

The two predicates below are written from the specification's words (not
from the code): containment of an AWS-access-key shape and of an
OpenAI-style-key shape. -/

/-- Spec shape: the text contains `AKIA` followed by exactly 16 characters
from `[0-9A-Z]`. -/
def containsAwsKey (s : String) : Prop :=
  ∃ pre mid post : List Char,
    s.data = pre ++ "AKIA".data ++ mid ++ post ∧ mid.length = 16 ∧
      ∀ c ∈ mid, isUpperDigit c = true

/-- Spec shape: the text contains `sk-`, then one of `proj`/`live`/`test`,
then `-`, then 20 or more characters from `[A-Za-z0-9_-]`. -/
def containsOpenAIKey (s : String) : Prop :=
  ∃ pre w mid post : List Char,
    s.data = pre ++ "sk-".data ++ w ++ "-".data ++ mid ++ post ∧
      (w = "proj".data ∨ w = "live".data ∨ w = "test".data) ∧
      20 ≤ mid.length ∧ ∀ c ∈ mid, isWordDash c = true

/-- The AWS matcher fires on a text exactly when the text contains the
spec's AWS-access-key shape. -/
theorem awsKey_iff (s : String) :
    findIter awsKeyRe s.data ≠ [] ↔ containsAwsKey s := by
  constructor
  · intro hne
    obtain ⟨m, hm⟩ := List.exists_mem_of_ne_nil _ hne
    obtain ⟨hmatch, _⟩ := findIter_sound _ _ _ hm
    obtain ⟨n, k, hlit, hrep, _⟩ := matchLen_seq_decomp hmatch
    obtain ⟨rfl, t, ht⟩ := matchLen_lit_decomp hlit
    rw [ht, List.drop_left] at hrep
    obtain ⟨rfl, hle, hall⟩ := matchLen_repEq_decomp hrep
    refine ⟨s.data.take m.1, t.take 16, t.drop 16, ?_, ?_, ?_⟩
    · conv_lhs => rw [← List.take_append_drop m.1 s.data]
      rw [ht]
      simp [List.append_assoc, List.take_append_drop]
    · simp [List.length_take]; omega
    · exact hall
  · rintro ⟨pre, mid, post, hs, hlen, hall⟩
    have hmatch : matchLen awsKeyRe (s.data.drop pre.length) = some (4 + 16) := by
      rw [hs, List.append_assoc, List.append_assoc, List.drop_left]
      rw [← List.append_assoc]
      have h1 : matchLen (.lit "AKIA") ("AKIA".data ++ (mid ++ post)) = some 4 :=
        matchLen_lit_eq "AKIA" (mid ++ post)
      refine matchLen_seq_eq (by rw [← List.append_assoc] at h1; exact h1) ?_
      rw [List.append_assoc]
      have h4 : ("AKIA".data ++ (mid ++ post)).drop 4 = mid ++ post :=
        List.drop_left "AKIA".data (mid ++ post)
      rw [h4]
      exact matchLen_repEq_eq hlen hall
    obtain ⟨m, hmem, _⟩ :=
      findIter_complete awsKeyRe (nonnull_seq_lit _ _ (by decide)) s.data pre.length _ hmatch
    exact List.ne_nil_of_mem hmem

/-- The OpenAI matcher fires on a text exactly when the text contains the
spec's OpenAI-style-key shape. -/
theorem openaiKey_iff (s : String) :
    findIter openaiRe s.data ≠ [] ↔ containsOpenAIKey s := by
  constructor
  · intro hne
    obtain ⟨m, hm⟩ := List.exists_mem_of_ne_nil _ hne
    obtain ⟨hmatch, _⟩ := findIter_sound _ _ _ hm
    obtain ⟨n1, k1, hsk, hrest, _⟩ := matchLen_seq_decomp hmatch
    obtain ⟨rfl, t1, ht1⟩ := matchLen_lit_decomp hsk
    rw [ht1, List.drop_left] at hrest
    obtain ⟨n2, k2, halt, hrest2, _⟩ := matchLen_seq_decomp hrest
    have hw : ∃ w, (w = "proj".data ∨ w = "live".data ∨ w = "test".data) ∧
        n2 = w.length ∧ ∃ t2, t1 = w ++ t2 := by
      rcases matchLen_alt_decomp halt with h | h
      · obtain ⟨hn, t2, ht2⟩ := matchLen_lit_decomp h
        exact ⟨"proj".data, Or.inl rfl, hn, t2, ht2⟩
      · rcases matchLen_alt_decomp h with h2 | h2
        · obtain ⟨hn, t2, ht2⟩ := matchLen_lit_decomp h2
          exact ⟨"live".data, Or.inr (Or.inl rfl), hn, t2, ht2⟩
        · obtain ⟨hn, t2, ht2⟩ := matchLen_lit_decomp h2
          exact ⟨"test".data, Or.inr (Or.inr rfl), hn, t2, ht2⟩
    obtain ⟨w, hwcases, rfl, t2, rfl⟩ := hw
    rw [List.drop_left] at hrest2
    obtain ⟨n3, k3, hdash, hrep, _⟩ := matchLen_seq_decomp hrest2
    obtain ⟨rfl, t3, rfl⟩ := matchLen_lit_decomp hdash
    rw [List.drop_left] at hrep
    obtain ⟨rfl, h20⟩ := matchLen_repGE_decomp hrep
    refine ⟨s.data.take m.1, w, t3.take (clsRun isWordDash t3),
      t3.drop (clsRun isWordDash t3), ?_, hwcases, ?_, ?_⟩
    · conv_lhs => rw [← List.take_append_drop m.1 s.data]
      rw [ht1]
      simp [List.append_assoc, List.take_append_drop]
    · rw [List.length_take]
      have := clsRun_le isWordDash t3
      omega
    · exact clsRun_take_all isWordDash t3
  · rintro ⟨pre, w, mid, post, hs, hwc, h20, hall⟩
    have hmid : 20 ≤ clsRun isWordDash (mid ++ post) :=
      le_trans h20 (clsRun_append_ge _ _ _ hall)
    have hrep : matchLen (.repGE isWordDash 20) (mid ++ post)
        = some (clsRun isWordDash (mid ++ post)) := matchLen_repGE_eq hmid
    have hdash : matchLen (.seq (.lit "-") (.repGE isWordDash 20))
        ("-".data ++ (mid ++ post))
        = some ("-".data.length + clsRun isWordDash (mid ++ post)) := by
      refine matchLen_seq_eq (matchLen_lit_eq "-" _) ?_
      rw [List.drop_left]
      exact hrep
    have halt : matchLen (.alt (.lit "proj") (.alt (.lit "live") (.lit "test")))
        (w ++ ("-".data ++ (mid ++ post))) = some w.length := by
      rcases hwc with rfl | rfl | rfl
      · exact matchLen_alt_left (matchLen_lit_eq "proj" _)
      · exact matchLen_alt_right rfl (matchLen_alt_left (matchLen_lit_eq "live" _))
      · exact matchLen_alt_right rfl (matchLen_alt_right rfl (matchLen_lit_eq "test" _))
    have hbody : matchLen openaiRe
        ("sk-".data ++ (w ++ ("-".data ++ (mid ++ post))))
        = some ("sk-".data.length + (w.length
            + ("-".data.length + clsRun isWordDash (mid ++ post)))) := by
      refine matchLen_seq_eq (matchLen_lit_eq "sk-" _) ?_
      rw [List.drop_left]
      refine matchLen_seq_eq halt ?_
      rw [List.drop_left]
      exact hdash
    have hdropPre : s.data.drop pre.length
        = "sk-".data ++ (w ++ ("-".data ++ (mid ++ post))) := by
      rw [hs]
      simp [List.append_assoc, List.drop_left]
    obtain ⟨m2, hmem, _⟩ := findIter_complete openaiRe
      (nonnull_seq_lit _ _ (by decide)) s.data pre.length _ (hdropPre ▸ hbody)
    exact List.ne_nil_of_mem hmem

/-! ### Structure of the accumulating loops -/

/-- An append-one-element loop is an append of a map. -/
theorem foldl_append_map {α β : Type} (g : α → β) :
    ∀ (l : List α) (init : List β),
      l.foldl (fun acc x => acc ++ [g x]) init = init ++ l.map g := by
  intro l
  induction l with
  | nil => intro init; simp
  | cons x xs ih => intro init; simp [ih, List.append_assoc]

/-- A nested append loop over patterns and their matches is an append of a
flat map of maps. -/
theorem nested_foldl_eq {α β γ : Type} (F : α → β → γ) (items : α → List β) :
    ∀ (l : List α) (init : List γ),
      l.foldl (fun acc x => (items x).foldl (fun acc2 y => acc2 ++ [F x y]) acc) init
        = init ++ l.flatMap (fun x => (items x).map (F x)) := by
  intro l
  induction l with
  | nil => intro init; simp
  | cons x xs ih =>
    intro init
    rw [List.foldl_cons, foldl_append_map (F x) (items x) init, ih,
      List.flatMap_cons, List.append_assoc]

/-- A loop appending one list per element is an append of a flat map. -/
theorem foldl_append_flatMap {α β : Type} (g : α → List β) :
    ∀ (l : List α) (init : List β),
      l.foldl (fun acc x => acc ++ g x) init = init ++ l.flatMap g := by
  intro l
  induction l with
  | nil => intro init; simp
  | cons x xs ih => intro init; rw [List.foldl_cons, ih, List.flatMap_cons,
      List.append_assoc]

/-- The text scanner, written as the flat map it accumulates: one finding
per match, patterns in registry order, matches left to right, line numbers
from `line_for_offset`. -/
theorem scan_text_eq (path text : String) :
    scan_text path text = SECRET_PATTERNS.flatMap (fun lp =>
      (findIter lp.2 text.data).map (fun m =>
        (⟨path, .line (line_for_offset text m.1), "possible " ++ lp.1⟩ : Finding))) := by
  have h := nested_foldl_eq
    (fun (lp : String × Regex) (m : Nat × Nat) =>
      (⟨path, .line (line_for_offset text m.1), "possible " ++ lp.1⟩ : Finding))
    (fun lp => findIter lp.2 text.data) SECRET_PATTERNS []
  simpa [scan_text] using h

/-- The per-cell findings, written as the outputs check plus the flat map
of secret-scan findings over the concatenated source. -/
theorem cellFindings_eq (path : String) (idx : Nat) (cell : Cell) :
    cellFindings path idx cell =
      (if cell.cellType = some "code" ∧ truthyOutputs cell.outputs then
        [(⟨path, .cell idx, outputsMsg⟩ : Finding)] else [])
      ++ SECRET_PATTERNS.flatMap (fun lp =>
          (findIter lp.2 (String.join cell.source).data).map (fun m =>
            (⟨path, .cellLine idx (line_for_offset (String.join cell.source) m.1),
              "possible " ++ lp.1⟩ : Finding))) := by
  have h := nested_foldl_eq
    (fun (lp : String × Regex) (m : Nat × Nat) =>
      (⟨path, .cellLine idx (line_for_offset (String.join cell.source) m.1),
        "possible " ++ lp.1⟩ : Finding))
    (fun lp => findIter lp.2 (String.join cell.source).data) SECRET_PATTERNS []
  simp only [cellFindings]
  rw [h]
  simp

/-- The notebook scanner on a parsed notebook, written as the flat map of
per-cell findings over the 1-indexed cells. -/
theorem scan_notebook_ok_eq (path : String) (nb : Notebook) :
    scan_notebook path (.ok nb)
      = (enumerateFrom 1 nb.cells).flatMap (fun ic => cellFindings path ic.1 ic.2) := by
  have h := foldl_append_flatMap
    (fun ic : Nat × Cell => cellFindings path ic.1 ic.2) (enumerateFrom 1 nb.cells) []
  simpa [scan_notebook] using h

/-- The driver's aggregation, written as the flat map of per-file scans. -/
theorem runFindings_eq (targets : List (String × FileState)) :
    runFindings targets = targets.flatMap (fun t => scan_file t.1 t.2) := by
  have h := foldl_append_flatMap
    (fun t : String × FileState => scan_file t.1 t.2) targets []
  simpa [runFindings] using h

/-! ### Separating the three classifier rules -/

/-- A blocked-filename message never coincides with the env or cert
message (its first character differs). -/
theorem blockedNameMsg_ne (name : String) :
    blockedNameMsg name ≠ envMsg ∧ blockedNameMsg name ≠ certMsg := by
  constructor <;> intro h <;>
    · have h1 : (blockedNameMsg name).data.head? = some 'b' := rfl
      rw [h] at h1
      exact absurd h1 (by decide)

/-- The env-rule finding occurs in the classifier output exactly as often
as the env rule fires: once when the lowercased base name starts with
`.env` and the original name is not exactly `.env.example`, else never. -/
theorem count_envFinding (p : String) :
    List.count (⟨p, .line 1, envMsg⟩ : Finding) (check_blocked_path p)
      = if leadsWith ".env".data (strLower (baseName p)).data = true
          ∧ baseName p ≠ ".env.example" then 1 else 0 := by
  simp only [check_blocked_path, List.count_append]
  have hA : List.count (⟨p, .line 1, envMsg⟩ : Finding)
      (if baseName p ∈ BLOCKED_FILENAMES then
        [⟨p, .line 1, blockedNameMsg (baseName p)⟩] else []) = 0 := by
    rw [List.count_eq_zero]
    split
    · intro hmem
      rw [List.mem_singleton, Finding.mk.injEq] at hmem
      exact (blockedNameMsg_ne (baseName p)).1 hmem.2.2.symm
    · simp
  have hC : List.count (⟨p, .line 1, envMsg⟩ : Finding)
      (if strLower (pySuffix p) ∈ [".pem", ".key", ".p12", ".crt"] then
        [⟨p, .line 1, certMsg⟩] else []) = 0 := by
    rw [List.count_eq_zero]
    split
    · intro hmem
      rw [List.mem_singleton, Finding.mk.injEq] at hmem
      exact absurd hmem.2.2 (by decide)
    · simp
  rw [hA, hC]
  split
  · simp [List.count_cons_self]
  · simp

/-- The cert-rule finding occurs in the classifier output exactly when the
lowercased suffix is one of the blocked extensions. -/
theorem certFinding_mem_iff (p : String) :
    (⟨p, .line 1, certMsg⟩ : Finding) ∈ check_blocked_path p
      ↔ strLower (pySuffix p) ∈ [".pem", ".key", ".p12", ".crt"] := by
  simp only [check_blocked_path, List.mem_append]
  constructor
  · intro h
    rcases h with (hA | hB) | hC
    · revert hA
      split
      · intro hA
        rw [List.mem_singleton, Finding.mk.injEq] at hA
        exact absurd hA.2.2.symm (blockedNameMsg_ne (baseName p)).2
      · simp
    · revert hB
      split
      · intro hB
        rw [List.mem_singleton, Finding.mk.injEq] at hB
        exact absurd hB.2.2 (by decide)
      · simp
    · revert hC
      split
      · rename_i hcond
        intro
        exact hcond
      · simp
  · intro hcond
    refine Or.inr ?_
    simp [hcond]

/-- A list with no dot has no last dot. -/
theorem lastDot_eq_none {cs : List Char} (h : '.' ∉ cs) : lastDot cs = none := by
  induction cs with
  | nil => rfl
  | cons c rest ih =>
    have h1 : c ≠ '.' := by rintro rfl; exact h (List.mem_cons_self ..)
    have h2 : ('.' : Char) ∉ rest := fun hm => h (List.mem_cons_of_mem _ hm)
    simp [lastDot, ih h2, h1]

/-- A base name that is a pure dotfile (leading dot, no further dot) has an
empty suffix. -/
theorem pySuffix_dotfile {p : String} {rest : List Char}
    (hname : (baseName p).data = '.' :: rest) (hnd : '.' ∉ rest) :
    pySuffix p = "" := by
  simp only [pySuffix, hname, lastDot, lastDot_eq_none hnd]
  simp

/-! ### Enumerated cells -/

/-- Membership in the 1-indexed enumeration, in terms of positional
lookup. -/
theorem enumerateFrom_mem_iff :
    ∀ (l : List Cell) (n i : Nat) (c : Cell),
      (i, c) ∈ enumerateFrom n l ↔ n ≤ i ∧ l[i - n]? = some c := by
  intro l
  induction l with
  | nil =>
    intro n i c
    simp [enumerateFrom]
  | cons c0 rest ih =>
    intro n i c
    simp only [enumerateFrom, List.mem_cons, Prod.mk.injEq, ih (n + 1)]
    constructor
    · rintro (⟨rfl, rfl⟩ | ⟨hle, hget⟩)
      · simp
      · refine ⟨by omega, ?_⟩
        have hidx : i - n = (i - (n + 1)) + 1 := by omega
        rw [hidx]
        simpa using hget
    · rintro ⟨hle, hget⟩
      by_cases hin : i = n
      · subst hin
        simp only [Nat.sub_self, List.getElem?_cons_zero, Option.some.injEq] at hget
        exact Or.inl ⟨rfl, hget.symm⟩
      · refine Or.inr ⟨by omega, ?_⟩
        have hidx : i - n = (i - (n + 1)) + 1 := by omega
        rw [hidx] at hget
        simpa using hget

/-- The uncleared-outputs finding for index `idx` belongs to the findings
of the cell enumerated at index `j` exactly when `j = idx` and the cell is
a code cell with truthy outputs. -/
theorem outputsFinding_mem_cellFindings (path : String) (idx j : Nat) (c : Cell) :
    (⟨path, .cell idx, outputsMsg⟩ : Finding) ∈ cellFindings path j c ↔
      idx = j ∧ c.cellType = some "code" ∧ truthyOutputs c.outputs = true := by
  rw [cellFindings_eq]
  simp only [List.mem_append, List.mem_flatMap, List.mem_map]
  constructor
  · intro h
    rcases h with h | ⟨lp, _, m, _, habs⟩
    · revert h
      split
      · rename_i hcond
        intro h
        rw [List.mem_singleton, Finding.mk.injEq, Loc.cell.injEq] at h
        exact ⟨h.2.1, hcond.1, hcond.2⟩
      · simp
    · exact absurd (congrArg Finding.loc habs) (by simp)
  · rintro ⟨rfl, hcode, hout⟩
    exact Or.inl (by simp [hcode, hout])

/-! ### The claims -/

/-- C1: the Text Scanner emits exactly one finding per pattern match, in
pattern-registry order and, within one pattern, in left-to-right match
position order; each finding's line number equals the count of newline
characters before the match's start offset plus one; and a text with zero
matches yields an empty finding list. -/
theorem claim_C1_text_scanner (path text : String) :
    scan_text path text
      = SECRET_PATTERNS.flatMap (fun lp =>
          (findIter lp.2 text.data).map (fun m =>
            (⟨path, .line ((text.data.take m.1).count '\n' + 1),
              "possible " ++ lp.1⟩ : Finding)))
    ∧ (scan_text path text).length
        = (SECRET_PATTERNS.map (fun lp => (findIter lp.2 text.data).length)).sum
    ∧ (∀ lp : String × Regex,
        ((findIter lp.2 text.data).map Prod.fst).Pairwise (· < ·))
    ∧ ((∀ lp ∈ SECRET_PATTERNS, findIter lp.2 text.data = []) →
        scan_text path text = []) := by
  have h1 := scan_text_eq path text
  simp only [line_for_offset] at h1
  refine ⟨h1, ?_, fun lp => findIter_starts_sorted lp.2 text.data, ?_⟩
  · rw [h1, List.length_flatMap]
    simp [Function.comp_def]
  · intro h
    rw [h1]
    exact List.flatMap_eq_nil_iff.2 (fun lp hlp => by rw [h lp hlp]; rfl)

/-- C1 witness: a concrete text with one AWS match on line 2 yields exactly
that finding, and a matchless text yields no findings. -/
theorem claim_C1_text_scanner_witness :
    scan_text "a.py" "x\nAKIA0123456789ABCDEF"
        = [⟨"a.py", .line 2, "possible AWS access key"⟩]
    ∧ scan_text "a.py" "clean text" = [] := by
  constructor
  · rw [(claim_C1_text_scanner "a.py" "x\nAKIA0123456789ABCDEF").1]
    decide
  · exact (claim_C1_text_scanner "a.py" "clean text").2.2.2 (by decide)

/-- C2: a string fires the AWS-access-key matcher exactly when it contains
`AKIA` followed by 16 characters from `[0-9A-Z]`, and the OpenAI matcher
exactly when it contains `sk-`, one of `proj`/`live`/`test`, `-`, and 20
or more characters from `[A-Za-z0-9_-]`; and every registry matcher
reports all non-overlapping occurrences (sound, mutually non-overlapping,
and complete), not only the first. -/
theorem claim_C2_registry_shapes :
    (∀ s : String, findIter awsKeyRe s.data ≠ [] ↔ containsAwsKey s)
    ∧ (∀ s : String, findIter openaiRe s.data ≠ [] ↔ containsOpenAIKey s)
    ∧ (∀ lp ∈ SECRET_PATTERNS, ∀ cs : List Char,
        (∀ m ∈ findIter lp.2 cs, matchLen lp.2 (cs.drop m.1) = some m.2 ∧ 1 ≤ m.2)
        ∧ (findIter lp.2 cs).Pairwise (fun a b => a.1 + a.2 ≤ b.1)
        ∧ (∀ i len, matchLen lp.2 (cs.drop i) = some len →
            ∃ m ∈ findIter lp.2 cs, m.1 ≤ i ∧ i < m.1 + m.2)) := by
  refine ⟨awsKey_iff, openaiKey_iff, fun lp hlp cs => ⟨?_, ?_, ?_⟩⟩
  · exact fun m hm => findIter_sound lp.2 cs m hm
  · exact findIterAux_pairwise lp.2 cs.length cs 0
  · exact fun i len hm => findIter_complete lp.2 (nonnull_registry lp hlp) cs i len hm

/-- C2 witness: the AWS iff produces the shape on a concrete hit; the
OpenAI matcher fires on a concrete key; a text with two AWS keys has a
reported match covering the second occurrence at offset 21. -/
theorem claim_C2_registry_shapes_witness :
    containsAwsKey "xAKIA0123456789ABCDEFy"
    ∧ findIter openaiRe "sk-test-aaaaaaaaaaaaaaaaaaaa".data ≠ []
    ∧ (∃ m ∈ findIter awsKeyRe
          "AKIA0123456789ABCDEF AKIA0123456789ABCDEF".data,
        m.1 ≤ 21 ∧ 21 < m.1 + m.2) := by
  refine ⟨(claim_C2_registry_shapes.1 "xAKIA0123456789ABCDEFy").mp (by decide), ?_, ?_⟩
  · refine (claim_C2_registry_shapes.2.1 "sk-test-aaaaaaaaaaaaaaaaaaaa").mpr
      ⟨[], "test".data, "aaaaaaaaaaaaaaaaaaaa".data, [], by decide,
        Or.inr (Or.inr rfl), by decide, by decide⟩
  · exact (claim_C2_registry_shapes.2.2 ("AWS access key", awsKeyRe)
      (List.mem_cons_of_mem _ (List.mem_cons_of_mem _ (List.mem_cons_self ..)))
      "AKIA0123456789ABCDEF AKIA0123456789ABCDEF".data).2.2 21 20 (by decide)

/-- C3: the env-rule finding is produced exactly once when the lowercased
base filename starts with `.env` and the original name is not exactly
`.env.example`, and never otherwise; hence `.env.example` yields no env
finding, `.env.local` yields exactly one, and `.ENV.example` is still
blocked. -/
theorem claim_C3_env_rule (p : String) :
    (List.count (⟨p, .line 1, envMsg⟩ : Finding) (check_blocked_path p)
      = if leadsWith ".env".data (strLower (baseName p)).data = true
          ∧ baseName p ≠ ".env.example" then 1 else 0)
    ∧ List.count (⟨".env.example", .line 1, envMsg⟩ : Finding)
        (check_blocked_path ".env.example") = 0
    ∧ List.count (⟨".env.local", .line 1, envMsg⟩ : Finding)
        (check_blocked_path ".env.local") = 1
    ∧ List.count (⟨".ENV.example", .line 1, envMsg⟩ : Finding)
        (check_blocked_path ".ENV.example") = 1 :=
  ⟨count_envFinding p, by decide, by decide, by decide⟩

/-- C3 witness: the general count rule instantiated at `.env.local`. -/
theorem claim_C3_env_rule_witness :
    List.count (⟨".env.local", .line 1, envMsg⟩ : Finding)
        (check_blocked_path ".env.local")
      = if leadsWith ".env".data (strLower (baseName ".env.local")).data = true
          ∧ baseName ".env.local" ≠ ".env.example" then 1 else 0 :=
  (claim_C3_env_rule ".env.local").1

/-- C4: in a parsed notebook, the cell at 0-based index `idx` produces the
uncleared-outputs finding at `cell(idx+1)` exactly when its type tag is
`code` and its outputs collection is present and non-empty; a code cell
with empty outputs produces none, and one non-empty entry produces exactly
one, at `cell1`. -/
theorem claim_C4_notebook_outputs (path : String) (nb : Notebook) (idx : Nat)
    (cell : Cell) (hcell : nb.cells[idx]? = some cell) :
    ((⟨path, .cell (idx + 1), outputsMsg⟩ : Finding) ∈ scan_notebook path (.ok nb)
      ↔ cell.cellType = some "code" ∧ truthyOutputs cell.outputs = true)
    ∧ scan_notebook "n.ipynb" (.ok ⟨[⟨some "code", ["x\n"], some []⟩]⟩) = []
    ∧ scan_notebook "n.ipynb" (.ok ⟨[⟨some "code", ["x\n"], some ["o"]⟩]⟩)
        = [⟨"n.ipynb", .cell 1, outputsMsg⟩] := by
  refine ⟨?_, by decide, by decide⟩
  rw [scan_notebook_ok_eq]
  simp only [List.mem_flatMap]
  constructor
  · rintro ⟨⟨j, c⟩, hmem, hfind⟩
    rw [outputsFinding_mem_cellFindings] at hfind
    obtain ⟨hj, hcode, hout⟩ := hfind
    dsimp only at hj hcode hout
    rw [enumerateFrom_mem_iff] at hmem
    obtain ⟨hle, hget⟩ := hmem
    subst hj
    simp only [Nat.add_sub_cancel] at hget
    rw [hcell] at hget
    injection hget with hget
    rw [← hget] at hcode hout
    exact ⟨hcode, hout⟩
  · intro hcond
    refine ⟨(idx + 1, cell), ?_, ?_⟩
    · rw [enumerateFrom_mem_iff]
      exact ⟨by omega, by simpa using hcell⟩
    · rw [outputsFinding_mem_cellFindings]
      exact ⟨rfl, hcond⟩

/-- C4 witness: the iff instantiated on a concrete one-cell notebook with
non-empty outputs. -/
theorem claim_C4_notebook_outputs_witness :
    (⟨"n.ipynb", .cell 1, outputsMsg⟩ : Finding)
      ∈ scan_notebook "n.ipynb" (.ok ⟨[⟨some "code", ["x\n"], some ["o"]⟩]⟩) :=
  (claim_C4_notebook_outputs "n.ipynb" ⟨[⟨some "code", ["x\n"], some ["o"]⟩]⟩ 0
    ⟨some "code", ["x\n"], some ["o"]⟩ (by decide)).1.mpr (by decide)

/-- C5: a notebook whose content fails to parse yields exactly one finding,
whose message starts with `cannot parse notebook JSON`, at line 1; and a
per-file failure never stops the aggregation over the other files. -/
theorem claim_C5_notebook_parse_failure :
    (∀ path e : String, scan_notebook path (.error e)
        = [⟨path, .line 1, "cannot parse notebook JSON: " ++ e⟩])
    ∧ (∀ path e : String, ∀ f ∈ scan_notebook path (.error e),
        leadsWith "cannot parse notebook JSON".data f.msg.data = true)
    ∧ (∀ (ts1 ts2 : List (String × FileState)) (t : String × FileState),
        runFindings (ts1 ++ t :: ts2)
          = runFindings ts1 ++ scan_file t.1 t.2 ++ runFindings ts2) := by
  refine ⟨fun path e => rfl, ?_, ?_⟩
  · intro path e f hf
    simp only [scan_notebook] at hf
    rw [List.mem_singleton] at hf
    subst hf
    show leadsWith "cannot parse notebook JSON".data
      ("cannot parse notebook JSON: " ++ e).data = true
    rw [String.data_append]
    exact (leadsWith_iff _ _).2 ⟨_, rfl⟩
  · intro ts1 ts2 t
    simp [runFindings_eq, List.flatMap_append, List.flatMap_cons, List.append_assoc]

/-- C5 witness: a concrete unparsable notebook among other files yields
its single finding and leaves the neighbours' findings intact. -/
theorem claim_C5_notebook_parse_failure_witness :
    scan_notebook "n.ipynb" (.error "bad json")
      = [⟨"n.ipynb", .line 1, "cannot parse notebook JSON: bad json"⟩]
    ∧ leadsWith "cannot parse notebook JSON".data
        (⟨"n.ipynb", .line 1, "cannot parse notebook JSON: bad json"⟩ : Finding).msg.data
        = true := by
  constructor
  · exact claim_C5_notebook_parse_failure.1 "n.ipynb" "bad json"
  · exact claim_C5_notebook_parse_failure.2.1 "n.ipynb" "bad json" _ (by decide)

/-- Any classifier finding carries one of the three rule messages. -/
theorem mem_check_blocked_path_msg (p : String) (f : Finding)
    (h : f ∈ check_blocked_path p) :
    f.msg = blockedNameMsg (baseName p) ∨ f.msg = envMsg ∨ f.msg = certMsg := by
  simp only [check_blocked_path, List.mem_append] at h
  rcases h with (h | h) | h <;> revert h <;> split <;> intro h <;>
    first
      | (rw [List.mem_singleton] at h; subst h; simp)
      | simp at h

/-- C6: a non-notebook file whose bytes contain a null byte is treated as
binary: the dispatcher returns exactly the classifier's issues and no
text-scan findings, even when the bytes carry secret-shaped text; a binary
`.key` file yields exactly the certificate/key finding. -/
theorem claim_C6_binary_skip (path : String) (fs : FileState) (data : List Nat)
    (hext : strLower (pySuffix path) ≠ ".ipynb")
    (hbytes : fs.bytes = .ok data) (hnull : 0 ∈ data) :
    scan_file path fs = check_blocked_path path
    ∧ scan_file "x.key" ⟨.ok (0 :: asciiBytes "AKIA0123456789ABCDEF"), .error ""⟩
        = [⟨"x.key", .line 1, certMsg⟩] := by
  constructor
  · simp [scan_file, hext, hbytes, hnull]
  · decide

/-- C6 witness: the binary-skip rule applied to a concrete binary file
whose classifier issues are empty. -/
theorem claim_C6_binary_skip_witness :
    scan_file "img.bin" ⟨.ok [0x89, 0x00, 0x41], .error ""⟩
      = check_blocked_path "img.bin" :=
  (claim_C6_binary_skip "img.bin" ⟨.ok [0x89, 0x00, 0x41], .error ""⟩
    [0x89, 0x00, 0x41] (by decide) rfl (by decide)).1

/-- C7: when reading a non-notebook file's bytes fails, the dispatcher
returns the classifier's issues plus exactly one `cannot read file` finding
at line 1, and the aggregation continues over the remaining files. -/
theorem claim_C7_read_failure (path : String) (fs : FileState) (e : String)
    (hext : strLower (pySuffix path) ≠ ".ipynb") (hbytes : fs.bytes = .error e) :
    scan_file path fs
      = check_blocked_path path ++ [⟨path, .line 1, "cannot read file: " ++ e⟩]
    ∧ (∀ (ts1 ts2 : List (String × FileState)),
        runFindings (ts1 ++ (path, fs) :: ts2)
          = runFindings ts1 ++ scan_file path fs ++ runFindings ts2) := by
  constructor
  · simp [scan_file, hext, hbytes]
  · intro ts1 ts2
    simp [runFindings_eq, List.flatMap_append, List.flatMap_cons, List.append_assoc]

/-- C7 witness: the read-failure rule applied to a concrete unreadable
plain file. -/
theorem claim_C7_read_failure_witness :
    scan_file "a.py" ⟨.error "Permission denied", .error ""⟩
      = check_blocked_path "a.py"
          ++ [⟨"a.py", .line 1, "cannot read file: Permission denied"⟩] :=
  (claim_C7_read_failure "a.py" ⟨.error "Permission denied", .error ""⟩
    "Permission denied" (by decide) rfl).1

/-- C8: the driver exits 0 with no output exactly when the aggregated
finding list is empty; otherwise it prints the blocked header, a blank
line, then one `- path:location: message` line per finding in aggregation
order, and exits 1; the concrete `a.py` example prints its AWS finding for
line 3 and exits 1. -/
theorem claim_C8_report_exit (targets : List (String × FileState)) :
    ((run targets).2 = 0 ∧ (run targets).1 = [] ↔ runFindings targets = [])
    ∧ (runFindings targets ≠ [] →
        run targets = ("[repo-safety] commit blocked:" :: "" ::
          (runFindings targets).map (fun f => "- " ++ f.format), 1))
    ∧ run [("a.py", ⟨.ok (asciiBytes "line1\nline2\nAKIA0123456789ABCDEF\n"),
          .error ""⟩)]
        = (["[repo-safety] commit blocked:", "",
            "- a.py:3: possible AWS access key"], 1)
    ∧ (∃ line ∈ (run [("a.py", ⟨.ok (asciiBytes "line1\nline2\nAKIA0123456789ABCDEF\n"),
          .error ""⟩)]).1, "a.py:3: possible AWS access key".data <:+: line.data) := by
  refine ⟨?_, ?_, by decide, by decide⟩
  · by_cases h : runFindings targets = []
    · simp [run, h]
    · simp [run, List.isEmpty_iff, h]
  · intro h
    simp [run, List.isEmpty_iff, h]

/-- C8 witness: the non-empty branch applied to the concrete `a.py`
target. -/
theorem claim_C8_report_exit_witness :
    run [("a.py", ⟨.ok (asciiBytes "line1\nline2\nAKIA0123456789ABCDEF\n"), .error ""⟩)]
      = ("[repo-safety] commit blocked:" :: "" ::
          (runFindings [("a.py",
            ⟨.ok (asciiBytes "line1\nline2\nAKIA0123456789ABCDEF\n"), .error ""⟩)]).map
            (fun f => "- " ++ f.format), 1) :=
  (claim_C8_report_exit _).2.1 (by decide)

/-- C9: for a `.ipynb` path the dispatcher's result does not depend on the
raw-byte read at all (no read, no null-byte sniff, no text scan), and a
notebook whose read or parse fails is reported as the single
`cannot parse notebook JSON` finding — never as `cannot read file`. -/
theorem claim_C9_notebook_dispatch (path : String) (fs fs2 : FileState)
    (hext : strLower (pySuffix path) = ".ipynb") :
    (fs.nb = fs2.nb → scan_file path fs = scan_file path fs2)
    ∧ (∀ e, fs.nb = .error e →
        scan_file path fs = check_blocked_path path
            ++ [⟨path, .line 1, "cannot parse notebook JSON: " ++ e⟩]
          ∧ ∀ f ∈ scan_file path fs,
              leadsWith "cannot read file".data f.msg.data = false) := by
  constructor
  · intro hnb
    simp [scan_file, hext, hnb]
  · intro e hnb
    have heq : scan_file path fs = check_blocked_path path
        ++ [⟨path, .line 1, "cannot parse notebook JSON: " ++ e⟩] := by
      simp [scan_file, hext, hnb, scan_notebook]
    refine ⟨heq, ?_⟩
    intro f hf
    rw [heq, List.mem_append] at hf
    rcases hf with hf | hf
    · rcases mem_check_blocked_path_msg path f hf with hm | hm | hm <;> rw [hm]
      · rfl
      · decide
      · decide
    · rw [List.mem_singleton] at hf
      subst hf
      rfl

/-- C9 witness: a concrete notebook path with a failing read on one side
and different bytes on the other. -/
theorem claim_C9_notebook_dispatch_witness :
    scan_file "n.ipynb" ⟨.error "boom", .error "bad"⟩
      = scan_file "n.ipynb" ⟨.ok [1, 2, 3], .error "bad"⟩
    ∧ scan_file "n.ipynb" ⟨.error "boom", .error "bad"⟩
        = check_blocked_path "n.ipynb"
            ++ [⟨"n.ipynb", .line 1, "cannot parse notebook JSON: bad"⟩] := by
  constructor
  · exact (claim_C9_notebook_dispatch "n.ipynb" ⟨.error "boom", .error "bad"⟩
      ⟨.ok [1, 2, 3], .error "bad"⟩ (by decide)).1 rfl
  · exact ((claim_C9_notebook_dispatch "n.ipynb" ⟨.error "boom", .error "bad"⟩
      ⟨.error "boom", .error "bad"⟩ (by decide)).2 "bad" rfl).1

/-- C10: a bare dotfile name (leading dot, no further dot) has an empty
suffix under the classifier's suffix computation, so the names `.pem`,
`.key`, `.p12`, `.crt` produce no certificate/key finding at all, while
`id.key` and `x.PEM` do. -/
theorem claim_C10_dotfile_extensions (p : String) (rest : List Char)
    (hname : (baseName p).data = '.' :: rest) (hnd : '.' ∉ rest) :
    pySuffix p = ""
    ∧ (⟨p, .line 1, certMsg⟩ : Finding) ∉ check_blocked_path p
    ∧ check_blocked_path ".pem" = [] ∧ check_blocked_path ".key" = []
    ∧ check_blocked_path ".p12" = [] ∧ check_blocked_path ".crt" = []
    ∧ check_blocked_path "id.key" = [⟨"id.key", .line 1, certMsg⟩]
    ∧ check_blocked_path "x.PEM" = [⟨"x.PEM", .line 1, certMsg⟩] := by
  have hsuf := pySuffix_dotfile hname hnd
  refine ⟨hsuf, ?_, by decide, by decide, by decide, by decide, by decide, by decide⟩
  rw [certFinding_mem_iff, hsuf]
  decide

/-- C10 witness: the dotfile rule applied to the concrete name `.key`. -/
theorem claim_C10_dotfile_extensions_witness :
    pySuffix ".key" = ""
    ∧ (⟨".key", .line 1, certMsg⟩ : Finding) ∉ check_blocked_path ".key" := by
  have h := claim_C10_dotfile_extensions ".key" "key".data (by decide) (by decide)
  exact ⟨h.1, h.2.1⟩

end RepoSafety
